import Mathlib

/-!
# Verification of the time-bucketing and summarization core of the
# aem-cloud-migration-reporter dashboard

This file gives a shallow embedding, in Lean 4, of the chart-data
("Aggregator" / "Bucketer") logic of the repository:

* `src/migration-admin/graph.js` — `createCustomersGraph.calculateData`
  (unique customers per day range, bounded to the last 60 days) and
  `createIngestionsGraph.calculateData` (raw event counts per day range,
  bounded to the last 60 days);
* `src/unnamed/part_005` — the near-duplicate variants of the same two
  functions, which apply *no* upper bound (`daysAgo >= 50` is a catch-all
  and the outer guard only excludes future events);
* `src/migration-admin/lineGraph.js` — `createLineGraph` (customers per
  UTC calendar month, keyed `YYYY-MM`) and `createTotalIngestionsGraph`
  (summed `totalIngestions` per UTC calendar month).

Timestamps are modelled as `Int` milliseconds since the Unix epoch, and
JavaScript's `Math.floor((now - timestamp) / 86400000)` as `Int.fdiv`
(floor division).  JavaScript `Set`s of customer names are modelled as
`Finset String` (the final content of such a set is exactly the set of
customer names inserted at least once).  `Number.prototype.toLocaleString`
is modelled as plain decimal `toString` (locale grouping is irrelevant to
every property proved here: tooltips are functions of the label and the
count either way).  The ECMAScript `Date` UTC accessors
(`getUTCFullYear`, `getUTCMonth`) and the parse of `"YYYY-MM-01T00:00:00Z"`
are embedded by the standard proleptic-Gregorian day arithmetic they are
specified by (year table from 1970 upward, month-length table with leap
February), executable by structural recursion.
-/

/-- The fixed ordered day-range labels of the bar graphs
(`graph.js` line 77/172/248, `part_005` line 83/234/321). -/
def dayRanges : List String := ["1-10", "11-20", "21-30", "31-40", "41-50", "51-60"]

/-- The label of the k-th fixed bucket (defaulting to `""` out of range). -/
def rangeLabel (i : Nat) : String := dayRanges.getD i ""

/-- `daysAgo = Math.floor((now - timestamp) / 86400000)`, the shared
day-distance computation of all four bar-graph variants
(`24 * 60 * 60 * 1000 = 86400000`). -/
def daysAgo (now t : Int) : Int := (now - t).fdiv 86400000

/-- Model of the `totalIngestions` field of a raw record, partitioned by
how `createTotalIngestionsGraph` can observe it. -/
inductive TotalIngestions where
  /-- `undefined`, `null`, `0`, `""` or any other falsy value: fails the
  truthiness filter of `createTotalIngestionsGraph`; `Number(...)` of it
  is `NaN` or `0`, so `Number(x) || 0` is `0`. -/
  | absent : TotalIngestions
  /-- a numeric value `n`; truthy iff `n ≠ 0`, and `Number(n) || 0 = n`
  (for `n = 0` both sides are `0`). -/
  | num (n : Int) : TotalIngestions
  /-- a truthy non-numeric value (e.g. a non-empty non-numeric string):
  passes the truthiness filter, but `Number(...)` is `NaN`, so
  `Number(x) || 0 = 0`. -/
  | nonNumeric : TotalIngestions
deriving DecidableEq

/-- A raw migration record as consumed by the chart-data functions.
`ingestionStartDates` is `some l` when the JS field is an array
(`m.ingestionStartDates && Array.isArray(...)` — note `[]` is truthy),
`none` when absent or not an array.  `lastIngestion` is `some v` for a
numeric field, `none` when absent. -/
structure MigrationRecord where
  customerName : String
  ingestionStartDates : Option (List Int)
  lastIngestion : Option Int
  totalIngestions : TotalIngestions
deriving DecidableEq

/-- Bucket classification of one timestamp by
`createCustomersGraph.calculateData` in `src/migration-admin/graph.js`
(lines 201–222): the window guard
`timestamp >= now - 60*24*60*60*1000 && timestamp <= now`, then the
half-open `daysAgo` branch chain. -/
def graphClassifyCustomers (now t : Int) : Option String :=
  if now - 60 * 24 * 60 * 60 * 1000 ≤ t ∧ t ≤ now then
    if 0 ≤ daysAgo now t ∧ daysAgo now t < 10 then some "1-10"
    else if 10 ≤ daysAgo now t ∧ daysAgo now t < 20 then some "11-20"
    else if 20 ≤ daysAgo now t ∧ daysAgo now t < 30 then some "21-30"
    else if 30 ≤ daysAgo now t ∧ daysAgo now t < 40 then some "31-40"
    else if 40 ≤ daysAgo now t ∧ daysAgo now t < 50 then some "41-50"
    else if 50 ≤ daysAgo now t ∧ daysAgo now t < 60 then some "51-60"
    else none
  else none

/-- Bucket classification of one timestamp by
`createIngestionsGraph.calculateData` in `src/migration-admin/graph.js`
(lines 278–299): textually the same window guard and branch chain as
`graphClassifyCustomers`. -/
def graphClassifyIngestions (now t : Int) : Option String :=
  if now - 60 * 24 * 60 * 60 * 1000 ≤ t ∧ t ≤ now then
    if 0 ≤ daysAgo now t ∧ daysAgo now t < 10 then some "1-10"
    else if 10 ≤ daysAgo now t ∧ daysAgo now t < 20 then some "11-20"
    else if 20 ≤ daysAgo now t ∧ daysAgo now t < 30 then some "21-30"
    else if 30 ≤ daysAgo now t ∧ daysAgo now t < 40 then some "31-40"
    else if 40 ≤ daysAgo now t ∧ daysAgo now t < 50 then some "41-50"
    else if 50 ≤ daysAgo now t ∧ daysAgo now t < 60 then some "51-60"
    else none
  else none

/-- Bucket classification of one timestamp by
`createCustomersGraph.calculateData` in `src/unnamed/part_005`
(lines 264–284): outer guard `daysAgo >= 0` only ("Include all
ingestions"), half-open branches up to `daysAgo < 50`, and a catch-all
`daysAgo >= 50` branch labelled `"51-60"`; no 60-day upper bound. -/
def p5ClassifyCustomers (now t : Int) : Option String :=
  if 0 ≤ daysAgo now t then
    if 0 ≤ daysAgo now t ∧ daysAgo now t < 10 then some "1-10"
    else if 10 ≤ daysAgo now t ∧ daysAgo now t < 20 then some "11-20"
    else if 20 ≤ daysAgo now t ∧ daysAgo now t < 30 then some "21-30"
    else if 30 ≤ daysAgo now t ∧ daysAgo now t < 40 then some "31-40"
    else if 40 ≤ daysAgo now t ∧ daysAgo now t < 50 then some "41-50"
    else if 50 ≤ daysAgo now t then some "51-60"
    else none
  else none

/-- Bucket classification of one timestamp by
`createIngestionsGraph.calculateData` in `src/unnamed/part_005`
(lines 352–373): outer guard `timestamp <= now`, closed-interval
branches `daysAgo <= 9`, …, `daysAgo <= 49`, and a catch-all
`daysAgo >= 50` branch labelled `"51-60"`; no 60-day upper bound. -/
def p5ClassifyIngestions (now t : Int) : Option String :=
  if t ≤ now then
    if 0 ≤ daysAgo now t ∧ daysAgo now t ≤ 9 then some "1-10"
    else if 10 ≤ daysAgo now t ∧ daysAgo now t ≤ 19 then some "11-20"
    else if 20 ≤ daysAgo now t ∧ daysAgo now t ≤ 29 then some "21-30"
    else if 30 ≤ daysAgo now t ∧ daysAgo now t ≤ 39 then some "31-40"
    else if 40 ≤ daysAgo now t ∧ daysAgo now t ≤ 49 then some "41-50"
    else if 50 ≤ daysAgo now t then some "51-60"
    else none
  else none

theorem daysAgo_eq_ediv (now t : Int) : daysAgo now t = (now - t) / 86400000 := by
  unfold daysAgo
  exact Int.fdiv_eq_ediv _ (by norm_num)

/-- The half-open branch chain (`< 10`, `< 20`, …, `< 60` style) sends
`d ∈ [0, 60)` to the label of index `d / 10`. -/
theorem chain_open (d : Int) (h0 : 0 ≤ d) (h60 : d < 60) :
    (if 0 ≤ d ∧ d < 10 then some "1-10"
     else if 10 ≤ d ∧ d < 20 then some "11-20"
     else if 20 ≤ d ∧ d < 30 then some "21-30"
     else if 30 ≤ d ∧ d < 40 then some "31-40"
     else if 40 ≤ d ∧ d < 50 then some "41-50"
     else if 50 ≤ d ∧ d < 60 then some "51-60"
     else none) = some (rangeLabel (d.toNat / 10)) := by
  split_ifs with h1 h2 h3 h4 h5 h6
  · have h : d.toNat / 10 = 0 := by omega
    simp [rangeLabel, dayRanges, h]
  · have h : d.toNat / 10 = 1 := by omega
    simp [rangeLabel, dayRanges, h]
  · have h : d.toNat / 10 = 2 := by omega
    simp [rangeLabel, dayRanges, h]
  · have h : d.toNat / 10 = 3 := by omega
    simp [rangeLabel, dayRanges, h]
  · have h : d.toNat / 10 = 4 := by omega
    simp [rangeLabel, dayRanges, h]
  · have h : d.toNat / 10 = 5 := by omega
    simp [rangeLabel, dayRanges, h]
  · omega

/-- The half-open branch chain with catch-all `50 ≤ d` (part_005
customers variant) agrees with the half-open rule on `d ∈ [0, 60)`. -/
theorem chain_open_catchall (d : Int) (h0 : 0 ≤ d) (h60 : d < 60) :
    (if 0 ≤ d ∧ d < 10 then some "1-10"
     else if 10 ≤ d ∧ d < 20 then some "11-20"
     else if 20 ≤ d ∧ d < 30 then some "21-30"
     else if 30 ≤ d ∧ d < 40 then some "31-40"
     else if 40 ≤ d ∧ d < 50 then some "41-50"
     else if 50 ≤ d then some "51-60"
     else none) = some (rangeLabel (d.toNat / 10)) := by
  split_ifs with h1 h2 h3 h4 h5 h6
  · have h : d.toNat / 10 = 0 := by omega
    simp [rangeLabel, dayRanges, h]
  · have h : d.toNat / 10 = 1 := by omega
    simp [rangeLabel, dayRanges, h]
  · have h : d.toNat / 10 = 2 := by omega
    simp [rangeLabel, dayRanges, h]
  · have h : d.toNat / 10 = 3 := by omega
    simp [rangeLabel, dayRanges, h]
  · have h : d.toNat / 10 = 4 := by omega
    simp [rangeLabel, dayRanges, h]
  · have h : d.toNat / 10 = 5 := by omega
    simp [rangeLabel, dayRanges, h]
  · omega

/-- The closed-interval branch chain (`≤ 9`, `≤ 19`, … style with
catch-all `50 ≤ d`; part_005 ingestions variant) agrees with the
half-open rule on `d ∈ [0, 60)`. -/
theorem chain_closed_catchall (d : Int) (h0 : 0 ≤ d) (h60 : d < 60) :
    (if 0 ≤ d ∧ d ≤ 9 then some "1-10"
     else if 10 ≤ d ∧ d ≤ 19 then some "11-20"
     else if 20 ≤ d ∧ d ≤ 29 then some "21-30"
     else if 30 ≤ d ∧ d ≤ 39 then some "31-40"
     else if 40 ≤ d ∧ d ≤ 49 then some "41-50"
     else if 50 ≤ d then some "51-60"
     else none) = some (rangeLabel (d.toNat / 10)) := by
  split_ifs with h1 h2 h3 h4 h5 h6
  · have h : d.toNat / 10 = 0 := by omega
    simp [rangeLabel, dayRanges, h]
  · have h : d.toNat / 10 = 1 := by omega
    simp [rangeLabel, dayRanges, h]
  · have h : d.toNat / 10 = 2 := by omega
    simp [rangeLabel, dayRanges, h]
  · have h : d.toNat / 10 = 3 := by omega
    simp [rangeLabel, dayRanges, h]
  · have h : d.toNat / 10 = 4 := by omega
    simp [rangeLabel, dayRanges, h]
  · have h : d.toNat / 10 = 5 := by omega
    simp [rangeLabel, dayRanges, h]
  · omega

/-- **C1.** Every timestamp with `0 ≤ daysAgo < 60` is assigned, by each of
the four day-range classification variants (unique-customers and
event-count, bounded `graph.js` and all-time `part_005`), to exactly the
fixed label of index `daysAgo / 10` — the half-open rule `[10k, 10k+10)`;
in particular the boundary days 10, 20, 30, 40, 50 fall in the bucket that
begins at that boundary (day 10 is labelled `"11-20"`, not `"1-10"`). -/
theorem bucket_assignment_half_open (now t : Int)
    (h0 : 0 ≤ daysAgo now t) (h60 : daysAgo now t < 60) :
    graphClassifyCustomers now t = some (rangeLabel ((daysAgo now t).toNat / 10)) ∧
    graphClassifyIngestions now t = some (rangeLabel ((daysAgo now t).toNat / 10)) ∧
    p5ClassifyCustomers now t = some (rangeLabel ((daysAgo now t).toNat / 10)) ∧
    p5ClassifyIngestions now t = some (rangeLabel ((daysAgo now t).toNat / 10)) := by
  have hde := daysAgo_eq_ediv now t
  have hwin : now - 60 * 24 * 60 * 60 * 1000 ≤ t ∧ t ≤ now := by
    constructor <;> omega
  refine ⟨?_, ?_, ?_, ?_⟩
  · unfold graphClassifyCustomers
    rw [if_pos hwin]
    exact chain_open _ h0 h60
  · unfold graphClassifyIngestions
    rw [if_pos hwin]
    exact chain_open _ h0 h60
  · unfold p5ClassifyCustomers
    rw [if_pos h0]
    exact chain_open_catchall _ h0 h60
  · unfold p5ClassifyIngestions
    rw [if_pos hwin.2]
    exact chain_closed_catchall _ h0 h60

/-- Concrete instance of `bucket_assignment_half_open` at the boundary
day 10: all four variants send it to `"11-20"`, not `"1-10"`. -/
theorem bucket_assignment_half_open_witness :
    (0 : Int) ≤ daysAgo 864000000 0 ∧ daysAgo 864000000 0 < 60 ∧
    graphClassifyCustomers 864000000 0 = some "11-20" ∧
    p5ClassifyIngestions 864000000 0 = some "11-20" := by
  have h := bucket_assignment_half_open 864000000 0 (by decide) (by decide)
  exact ⟨by decide, by decide, h.1, h.2.2.2⟩

/-- **C2.** In the bounded (60-day) mode — the two `graph.js` variants,
which are the ones that apply the 60-day window — a timestamp with
`daysAgo < 0` (future event) is classified to no bucket, a timestamp with
`daysAgo ≥ 60` is classified to no bucket, and any timestamp that does
receive a bucket satisfies `0 ≤ daysAgo < 60`. -/
theorem bounded_mode_exclusion (now t : Int) :
    (daysAgo now t < 0 →
      graphClassifyCustomers now t = none ∧ graphClassifyIngestions now t = none) ∧
    (60 ≤ daysAgo now t →
      graphClassifyCustomers now t = none ∧ graphClassifyIngestions now t = none) ∧
    (∀ r, graphClassifyCustomers now t = some r →
      0 ≤ daysAgo now t ∧ daysAgo now t < 60) ∧
    (∀ r, graphClassifyIngestions now t = some r →
      0 ≤ daysAgo now t ∧ daysAgo now t < 60) := by
  have hde := daysAgo_eq_ediv now t
  unfold graphClassifyCustomers graphClassifyIngestions
  by_cases hw : now - 60 * 24 * 60 * 60 * 1000 ≤ t ∧ t ≤ now
  · rw [if_pos hw]
    refine ⟨fun hneg => absurd hw (by omega), fun hge => ?_, fun r h => ?_, fun r h => ?_⟩
    · constructor <;> (split_ifs <;> first | rfl | omega)
    · split_ifs at h <;> omega
    · split_ifs at h <;> omega
  · rw [if_neg hw]
    exact ⟨fun _ => ⟨rfl, rfl⟩, fun _ => ⟨rfl, rfl⟩,
      fun r h => absurd h (by simp), fun r h => absurd h (by simp)⟩

/-- Concrete instances of `bounded_mode_exclusion`: a future event
(`daysAgo = -1`) and an event exactly 60 days old are both excluded. -/
theorem bounded_mode_exclusion_witness :
    graphClassifyCustomers 0 86400000 = none ∧
    graphClassifyIngestions 5184000000 0 = none := by
  exact ⟨((bounded_mode_exclusion 0 86400000).1 (by decide)).1,
         ((bounded_mode_exclusion 5184000000 0).2.1 (by decide)).2⟩

/-- One bar of a day-range bar graph (`{range, count, tooltip}`). -/
structure BarPoint where
  range : String
  count : Nat
  tooltip : String
deriving DecidableEq

/-- The result shape of the bar-graph `calculateData` functions:
`{dataPoints, maxCount}` with the optional `totalUniqueCustomers` that
only the `part_005` customers variant adds. -/
structure AggregateSeries where
  dataPoints : List BarPoint
  maxCount : Nat
  totalUniqueCustomers : Option Nat
deriving DecidableEq

/-- The `validMigrations` filter shared by all four bar-graph variants:
keep records whose `ingestionStartDates` is (truthy and) an array. -/
def validRecords (migs : List MigrationRecord) : List MigrationRecord :=
  migs.filter fun m => m.ingestionStartDates.isSome

/-- The final content of the per-range JS `Set` of customer names built by
the unique-customer variants: a record's `customerName` is inserted into
range `r`'s set exactly when some of its timestamps classifies to `r`, so
the set is the (deduplicated) image below. -/
def bucketSet (classify : Int → Int → Option String) (now : Int)
    (valid : List MigrationRecord) (r : String) : Finset String :=
  ((valid.filter fun m =>
      (m.ingestionStartDates.getD []).any fun t => classify now t == some r).map
    fun m => m.customerName).toFinset

/-- The one JS `Set` `allUniqueCustomers` that `part_005`'s customers
variant fills from all six per-range sets (union in label order). -/
def unionOver (S : String → Finset String) (l : List String) : Finset String :=
  l.foldl (fun acc r => acc ∪ S r) ∅

/-- Tooltip of `graph.js` `createCustomersGraph` bars
(`toLocaleString` modelled as decimal `toString`). -/
def graphCustomersTooltip (r : String) (n : Nat) : String :=
  r ++ " days: " ++ toString n ++ " customers"

/-- Tooltip of `part_005` `createCustomersGraph` bars. -/
def p5CustomersTooltip (r : String) (n : Nat) : String :=
  r ++ " days ago: " ++ toString n ++ " unique customers"

/-- `createCustomersGraph.calculateData` of `src/migration-admin/graph.js`
(lines 178–240): filter to records with an `ingestionStartDates` array;
if none remain return the empty-series sentinel
`{dataPoints: [], maxCount: 0}`; otherwise build the six per-range
customer-name sets, take their sizes as counts, emit one point per fixed
label in fixed order, and report `Math.max(...counts) || 1` as
`maxCount`. -/
def graphCustomersCalc (now : Int) (migs : List MigrationRecord) : AggregateSeries :=
  let valid := validRecords migs
  if valid.length = 0 then { dataPoints := [], maxCount := 0, totalUniqueCustomers := none }
  else
    let rangeCounts : String → Nat := fun r => (bucketSet graphClassifyCustomers now valid r).card
    let maxCount := (dayRanges.map rangeCounts).foldl max 0
    { dataPoints := dayRanges.map fun r =>
        { range := r, count := rangeCounts r, tooltip := graphCustomersTooltip r (rangeCounts r) },
      maxCount := if maxCount = 0 then 1 else maxCount,
      totalUniqueCustomers := none }

/-- `createCustomersGraph.calculateData` of `src/unnamed/part_005`
(lines 242–313): same shape as the `graph.js` variant but with the
all-time classifier, a different tooltip, and additionally
`totalUniqueCustomers`, the size of the union of the six per-range
sets. -/
def p5CustomersCalc (now : Int) (migs : List MigrationRecord) : AggregateSeries :=
  let valid := validRecords migs
  if valid.length = 0 then { dataPoints := [], maxCount := 0, totalUniqueCustomers := none }
  else
    let rangeCounts : String → Nat := fun r => (bucketSet p5ClassifyCustomers now valid r).card
    let maxCount := (dayRanges.map rangeCounts).foldl max 0
    { dataPoints := dayRanges.map fun r =>
        { range := r, count := rangeCounts r, tooltip := p5CustomersTooltip r (rangeCounts r) },
      maxCount := if maxCount = 0 then 1 else maxCount,
      totalUniqueCustomers :=
        some (unionOver (bucketSet p5ClassifyCustomers now valid) dayRanges).card }

theorem mem_bucketSet {classify : Int → Int → Option String} {now : Int}
    {valid : List MigrationRecord} {r : String} {c : String} :
    c ∈ bucketSet classify now valid r ↔
      ∃ m ∈ valid, m.customerName = c ∧
        ∃ t ∈ m.ingestionStartDates.getD [], classify now t = some r := by
  unfold bucketSet
  simp only [List.mem_toFinset, List.mem_map, List.mem_filter, List.any_eq_true,
    beq_iff_eq]
  constructor
  · rintro ⟨m, ⟨hm, t, ht, hc⟩, rfl⟩
    exact ⟨m, hm, rfl, t, ht, hc⟩
  · rintro ⟨m, hm, rfl, t, ht, hc⟩
    exact ⟨m, ⟨hm, t, ht, hc⟩, rfl⟩

theorem foldl_max_ge (l : List Nat) (a : Nat) : a ≤ l.foldl max a := by
  induction l generalizing a with
  | nil => exact Nat.le_refl a
  | cons x xs ih => exact le_trans (Nat.le_max_left a x) (ih (max a x))

theorem mem_le_foldl_max (l : List Nat) (a : Nat) : ∀ x ∈ l, x ≤ l.foldl max a := by
  induction l generalizing a with
  | nil => intro x hx; cases hx
  | cons y ys ih =>
    intro x hx
    rcases List.mem_cons.mp hx with rfl | hx
    · exact le_trans (Nat.le_max_right a x) (foldl_max_ge ys (max a x))
    · exact ih (max a y) x hx

theorem foldl_max_cases (l : List Nat) (a : Nat) :
    l.foldl max a = a ∨ l.foldl max a ∈ l := by
  induction l generalizing a with
  | nil => exact Or.inl rfl
  | cons x xs ih =>
    simp only [List.foldl_cons]
    rcases ih (max a x) with h | h
    · rcases max_choice a x with hm | hm
      · rw [h, hm]; exact Or.inl rfl
      · rw [h, hm]; exact Or.inr (List.mem_cons_self x xs)
    · exact Or.inr (List.mem_cons_of_mem x h)

/-- **C3.** `graph.js` `createCustomersGraph.calculateData`: with no
qualifying record the result is the empty-series sentinel
(`dataPoints = []`, `maxCount = 0`); otherwise there are exactly six
points, one per fixed label in fixed order, a bucket that receives no
event has count 0, and `maxCount = max(counts) ⊔ 1 ≥ 1`. -/
theorem fixed_bucket_series_shape (now : Int) (migs : List MigrationRecord) :
    (validRecords migs = [] →
      graphCustomersCalc now migs = ⟨[], 0, none⟩) ∧
    (validRecords migs ≠ [] →
      ((graphCustomersCalc now migs).dataPoints.map (fun p => p.range) = dayRanges ∧
       (graphCustomersCalc now migs).dataPoints.length = 6) ∧
      (∀ p ∈ (graphCustomersCalc now migs).dataPoints,
        (∀ m ∈ validRecords migs, ∀ t ∈ m.ingestionStartDates.getD [],
            graphClassifyCustomers now t ≠ some p.range) → p.count = 0) ∧
      1 ≤ (graphCustomersCalc now migs).maxCount ∧
      (graphCustomersCalc now migs).maxCount =
        max 1 (((graphCustomersCalc now migs).dataPoints.map
          (fun p => p.count)).foldl max 0)) := by
  constructor
  · intro h
    unfold graphCustomersCalc
    rw [if_pos (by rw [h]; rfl)]
  · intro h
    have hlen : ¬ (validRecords migs).length = 0 := by
      simpa [List.length_eq_zero] using h
    unfold graphCustomersCalc
    rw [if_neg hlen]
    simp only []
    refine ⟨⟨?_, ?_⟩, ?_, ?_, ?_⟩
    · rfl
    · rfl
    · intro p hp hnone
      simp only [List.mem_map] at hp
      obtain ⟨r, hr, rfl⟩ := hp
      show (bucketSet graphClassifyCustomers now (validRecords migs) r).card = 0
      rw [Finset.card_eq_zero, Finset.eq_empty_iff_forall_not_mem]
      intro c hc
      rw [mem_bucketSet] at hc
      obtain ⟨m, hm, _, t, ht, hcl⟩ := hc
      exact hnone m hm t ht hcl
    · split_ifs with hz
      · exact Nat.le_refl 1
      · omega
    · have hmap : ((dayRanges.map fun r =>
          ({ range := r,
             count := (bucketSet graphClassifyCustomers now (validRecords migs) r).card,
             tooltip := graphCustomersTooltip r
               (bucketSet graphClassifyCustomers now (validRecords migs) r).card } :
            BarPoint)).map fun p => p.count) =
          dayRanges.map fun r =>
            (bucketSet graphClassifyCustomers now (validRecords migs) r).card := by
        rw [List.map_map]
        rfl
      rw [hmap]
      split_ifs with hz
      · rw [hz]
        omega
      · omega

/-- Concrete instances of `fixed_bucket_series_shape`: the sentinel on an
empty input, and the six fixed labels on a one-record input. -/
theorem fixed_bucket_series_shape_witness :
    graphCustomersCalc 0 [] = ⟨[], 0, none⟩ ∧
    (graphCustomersCalc 0 [⟨"A", some [0], none, .absent⟩]).dataPoints.length = 6 := by
  refine ⟨(fixed_bucket_series_shape 0 []).1 rfl, ?_⟩
  exact (((fixed_bucket_series_shape 0 [⟨"A", some [0], none, .absent⟩]).2
    (by decide)).1).2

theorem mem_unionOver_foldl (S : String → Finset String) (l : List String)
    (acc : Finset String) (c : String) :
    c ∈ l.foldl (fun a r => a ∪ S r) acc ↔ c ∈ acc ∨ ∃ r ∈ l, c ∈ S r := by
  induction l generalizing acc with
  | nil => simp
  | cons x xs ih =>
    simp only [List.foldl_cons, ih, Finset.mem_union, List.mem_cons]
    constructor
    · rintro (⟨h | h⟩ | ⟨r, hr, hc⟩)
      · exact Or.inl h
      · exact Or.inr ⟨x, Or.inl rfl, h⟩
      · exact Or.inr ⟨r, Or.inr hr, hc⟩
    · rintro (h | ⟨r, rfl | hr, hc⟩)
      · exact Or.inl (Or.inl h)
      · exact Or.inl (Or.inr hc)
      · exact Or.inr ⟨r, hr, hc⟩

theorem mem_unionOver (S : String → Finset String) (l : List String) (c : String) :
    c ∈ unionOver S l ↔ ∃ r ∈ l, c ∈ S r := by
  unfold unionOver
  rw [mem_unionOver_foldl]
  simp

theorem unionOver_foldl_card_le (S : String → Finset String) (l : List String)
    (acc : Finset String) :
    (l.foldl (fun a r => a ∪ S r) acc).card ≤
      acc.card + (l.map fun r => (S r).card).sum := by
  induction l generalizing acc with
  | nil => simp
  | cons x xs ih =>
    simp only [List.foldl_cons, List.map_cons, List.sum_cons]
    calc (xs.foldl (fun a r => a ∪ S r) (acc ∪ S x)).card
        ≤ (acc ∪ S x).card + (xs.map fun r => (S r).card).sum := ih (acc ∪ S x)
      _ ≤ acc.card + (S x).card + (xs.map fun r => (S r).card).sum := by
          have := Finset.card_union_le acc (S x)
          omega
      _ = acc.card + ((S x).card + (xs.map fun r => (S r).card).sum) := by omega

/-- Pairwise-disjointness of the per-range sets, phrased as the spec does:
no customer appears in two distinct buckets. -/
def NoOverlap (S : String → Finset String) (l : List String) : Prop :=
  ∀ r1 ∈ l, ∀ r2 ∈ l, r1 ≠ r2 → Disjoint (S r1) (S r2)

theorem unionOver_foldl_card_eq_iff (S : String → Finset String) (l : List String)
    (hnd : l.Nodup) :
    ∀ acc : Finset String,
      ((l.foldl (fun a r => a ∪ S r) acc).card =
          acc.card + (l.map fun r => (S r).card).sum ↔
        (∀ r ∈ l, Disjoint acc (S r)) ∧ NoOverlap S l) := by
  induction l with
  | nil =>
    intro acc
    simp [NoOverlap]
  | cons x xs ih =>
    intro acc
    have hx : x ∉ xs := (List.nodup_cons.mp hnd).1
    have hnd' : xs.Nodup := (List.nodup_cons.mp hnd).2
    simp only [List.foldl_cons, List.map_cons, List.sum_cons]
    have h1 : (xs.foldl (fun a r => a ∪ S r) (acc ∪ S x)).card ≤
        (acc ∪ S x).card + (xs.map fun r => (S r).card).sum :=
      unionOver_foldl_card_le S xs (acc ∪ S x)
    have h2 : (acc ∪ S x).card + (acc ∩ S x).card = acc.card + (S x).card :=
      Finset.card_union_add_card_inter acc (S x)
    have h3 : (acc ∪ S x).card ≤ acc.card + (S x).card := Finset.card_union_le acc (S x)
    constructor
    · intro heq
      have hsplit : (xs.foldl (fun a r => a ∪ S r) (acc ∪ S x)).card =
          (acc ∪ S x).card + (xs.map fun r => (S r).card).sum ∧
          (acc ∪ S x).card = acc.card + (S x).card := by omega
      have hdisjx : Disjoint acc (S x) := by
        rw [Finset.disjoint_iff_inter_eq_empty, ← Finset.card_eq_zero]
        omega
      have hrest := (ih hnd' (acc ∪ S x)).mp hsplit.1
      have hrest1 : ∀ r ∈ xs, Disjoint acc (S r) ∧ Disjoint (S x) (S r) := by
        intro r hr
        have := hrest.1 r hr
        rw [Finset.disjoint_union_left] at this
        exact this
      refine ⟨?_, ?_⟩
      · intro r hr
        rcases List.mem_cons.mp hr with rfl | hr
        · exact hdisjx
        · exact (hrest1 r hr).1
      · intro r1 hr1 r2 hr2 hne
        rcases List.mem_cons.mp hr1 with heq1 | hr1' <;>
          rcases List.mem_cons.mp hr2 with heq2 | hr2'
        · exact absurd (heq1.trans heq2.symm) hne
        · rw [heq1]
          exact (hrest1 r2 hr2').2
        · rw [heq2]
          exact ((hrest1 r1 hr1').2).symm
        · exact hrest.2 r1 hr1' r2 hr2' hne
    · rintro ⟨hacc, hpw⟩
      have hdisjx : Disjoint acc (S x) := hacc x (List.mem_cons_self x xs)
      have hcardu : (acc ∪ S x).card = acc.card + (S x).card := by
        have : acc ∩ S x = ∅ := Finset.disjoint_iff_inter_eq_empty.mp hdisjx
        rw [this, Finset.card_empty] at h2
        omega
      have hrest : (xs.foldl (fun a r => a ∪ S r) (acc ∪ S x)).card =
          (acc ∪ S x).card + (xs.map fun r => (S r).card).sum := by
        rw [ih hnd' (acc ∪ S x)]
        refine ⟨?_, ?_⟩
        · intro r hr
          rw [Finset.disjoint_union_left]
          exact ⟨hacc r (List.mem_cons_of_mem x hr),
            hpw x (List.mem_cons_self x xs) r (List.mem_cons_of_mem x hr)
              (fun he => hx (he ▸ hr))⟩
        · intro r1 hr1 r2 hr2 hne
          exact hpw r1 (List.mem_cons_of_mem x hr1) r2 (List.mem_cons_of_mem x hr2) hne
      omega

theorem dayRanges_nodup : dayRanges.Nodup := by decide

/-- **C4.** `part_005` unique-customer aggregation: whenever
`totalUniqueCustomers` is produced, it is at most the sum of the
per-bucket counts, with equality exactly when no customer name appears in
two distinct buckets. -/
theorem total_unique_le_sum (now : Int) (migs : List MigrationRecord) (tu : Nat)
    (htu : (p5CustomersCalc now migs).totalUniqueCustomers = some tu) :
    tu ≤ (((p5CustomersCalc now migs).dataPoints.map fun p => p.count)).sum ∧
    (tu = (((p5CustomersCalc now migs).dataPoints.map fun p => p.count)).sum ↔
      ∀ c r1 r2, r1 ∈ dayRanges → r2 ∈ dayRanges →
        c ∈ bucketSet p5ClassifyCustomers now (validRecords migs) r1 →
        c ∈ bucketSet p5ClassifyCustomers now (validRecords migs) r2 → r1 = r2) := by
  unfold p5CustomersCalc at htu ⊢
  by_cases hlen : (validRecords migs).length = 0
  · rw [if_pos hlen] at htu
    exact absurd htu (by simp)
  · rw [if_neg hlen] at htu ⊢
    simp only [] at htu ⊢
    have htu' : tu = (unionOver
        (bucketSet p5ClassifyCustomers now (validRecords migs)) dayRanges).card := by
      have := htu
      simp only [Option.some_inj] at this
      omega
    have hmap : ((dayRanges.map fun r =>
        ({ range := r,
           count := (bucketSet p5ClassifyCustomers now (validRecords migs) r).card,
           tooltip := p5CustomersTooltip r
             (bucketSet p5ClassifyCustomers now (validRecords migs) r).card } :
          BarPoint)).map fun p => p.count) =
        dayRanges.map fun r =>
          (bucketSet p5ClassifyCustomers now (validRecords migs) r).card := by
      rw [List.map_map]
      rfl
    rw [hmap, htu']
    have hle := unionOver_foldl_card_le
      (bucketSet p5ClassifyCustomers now (validRecords migs)) dayRanges ∅
    have hiff := unionOver_foldl_card_eq_iff
      (bucketSet p5ClassifyCustomers now (validRecords migs)) dayRanges dayRanges_nodup ∅
    rw [Finset.card_empty] at hle hiff
    constructor
    · unfold unionOver
      omega
    · unfold unionOver
      rw [Nat.zero_add] at hiff
      rw [hiff]
      have hdisj : ∀ r ∈ dayRanges,
          Disjoint (∅ : Finset String)
            (bucketSet p5ClassifyCustomers now (validRecords migs) r) :=
        fun r _ => Finset.disjoint_empty_left _
      constructor
      · rintro ⟨-, hpw⟩ c r1 r2 hr1 hr2 hc1 hc2
        by_contra hne
        exact Finset.disjoint_left.mp (hpw r1 hr1 r2 hr2 hne) hc1 hc2
      · intro hform
        refine ⟨hdisj, ?_⟩
        intro r1 hr1 r2 hr2 hne
        rw [Finset.disjoint_left]
        intro c hc1 hc2
        exact hne (hform c r1 r2 hr1 hr2 hc1 hc2)

/-- Concrete instance of `total_unique_le_sum`: one customer with one
event gives `totalUniqueCustomers = 1 ≤ 1`, the sum of the counts. -/
theorem total_unique_le_sum_witness :
    1 ≤ (((p5CustomersCalc 0 [⟨"A", some [0], none, .absent⟩]).dataPoints.map
      fun p => p.count)).sum :=
  (total_unique_le_sum 0 [⟨"A", some [0], none, .absent⟩] 1 (by decide)).1

theorem exists_mem_append_singleton {P : Int → Prop} {ts : List Int} {t : Int}
    (ht : t ∈ ts) : (∃ x ∈ ts ++ [t], P x) ↔ ∃ x ∈ ts, P x := by
  constructor
  · rintro ⟨x, hx, hp⟩
    rcases List.mem_append.mp hx with hx | hx
    · exact ⟨x, hx, hp⟩
    · rcases List.mem_singleton.mp hx with rfl
      exact ⟨x, ht, hp⟩
  · rintro ⟨x, hx, hp⟩
    exact ⟨x, List.mem_append_left _ hx, hp⟩

theorem validRecords_middle (pre post : List MigrationRecord) (m : MigrationRecord)
    (h : m.ingestionStartDates.isSome) :
    validRecords (pre ++ m :: post) = validRecords pre ++ m :: validRecords post := by
  simp [validRecords, List.filter_append, List.filter_cons, h]

theorem validRecords_append_singleton (migs : List MigrationRecord)
    (m : MigrationRecord) (h : m.ingestionStartDates.isSome) :
    validRecords (migs ++ [m]) = validRecords migs ++ [m] := by
  simp [validRecords, List.filter_append, h]

/-- Duplicating a timestamp inside one record does not change any
per-range customer-name set. -/
theorem bucketSet_dup_timestamp (classify : Int → Int → Option String) (now : Int)
    (pre post : List MigrationRecord) (name : String) (ts : List Int) (t : Int)
    (li : Option Int) (ti : TotalIngestions) (ht : t ∈ ts) :
    bucketSet classify now
        (validRecords (pre ++ (⟨name, some (ts ++ [t]), li, ti⟩ : MigrationRecord) :: post)) =
      bucketSet classify now
        (validRecords (pre ++ (⟨name, some ts, li, ti⟩ : MigrationRecord) :: post)) := by
  rw [validRecords_middle pre post _ (by rfl), validRecords_middle pre post _ (by rfl)]
  funext r
  ext c
  rw [mem_bucketSet, mem_bucketSet]
  constructor
  · rintro ⟨m, hm, hname, t', ht', hcl⟩
    rcases List.mem_append.mp hm with hm | hm
    · exact ⟨m, List.mem_append_left _ hm, hname, t', ht', hcl⟩
    · rcases List.mem_cons.mp hm with rfl | hm
      · refine ⟨⟨name, some ts, li, ti⟩,
          List.mem_append_right _ (List.mem_cons_self _ _), hname, ?_⟩
        exact (exists_mem_append_singleton ht).mp ⟨t', ht', hcl⟩
      · exact ⟨m, List.mem_append_right _ (List.mem_cons_of_mem _ hm), hname, t', ht', hcl⟩
  · rintro ⟨m, hm, hname, t', ht', hcl⟩
    rcases List.mem_append.mp hm with hm | hm
    · exact ⟨m, List.mem_append_left _ hm, hname, t', ht', hcl⟩
    · rcases List.mem_cons.mp hm with rfl | hm
      · refine ⟨⟨name, some (ts ++ [t]), li, ti⟩,
          List.mem_append_right _ (List.mem_cons_self _ _), hname, ?_⟩
        exact ⟨t', List.mem_append_left _ ht', hcl⟩
      · exact ⟨m, List.mem_append_right _ (List.mem_cons_of_mem _ hm), hname, t', ht', hcl⟩

/-- Appending a one-event record whose `(customerName, timestamp)` pair
already occurs in the list does not change any per-range set. -/
theorem bucketSet_dup_pair (classify : Int → Int → Option String) (now : Int)
    (migs : List MigrationRecord) (name : String) (ts : List Int) (t : Int)
    (li li' : Option Int) (ti ti' : TotalIngestions)
    (hmem : (⟨name, some ts, li, ti⟩ : MigrationRecord) ∈ migs) (ht : t ∈ ts) :
    bucketSet classify now
        (validRecords (migs ++ [(⟨name, some [t], li', ti'⟩ : MigrationRecord)])) =
      bucketSet classify now (validRecords migs) := by
  rw [validRecords_append_singleton migs _ (by rfl)]
  funext r
  ext c
  rw [mem_bucketSet, mem_bucketSet]
  constructor
  · rintro ⟨m, hm, hname, t', ht', hcl⟩
    rcases List.mem_append.mp hm with hm | hm
    · exact ⟨m, hm, hname, t', ht', hcl⟩
    · rcases List.mem_singleton.mp hm with rfl
      rcases List.mem_singleton.mp ht' with rfl
      refine ⟨⟨name, some ts, li, ti⟩, ?_, hname, t', ht, hcl⟩
      exact List.mem_filter.mpr ⟨hmem, rfl⟩
  · rintro ⟨m, hm, hname, t', ht', hcl⟩
    exact ⟨m, List.mem_append_left _ hm, hname, t', ht', hcl⟩

theorem graphCustomersCalc_congr (now : Int) (l1 l2 : List MigrationRecord)
    (h1 : ¬ (validRecords l1).length = 0) (h2 : ¬ (validRecords l2).length = 0)
    (hset : bucketSet graphClassifyCustomers now (validRecords l1) =
      bucketSet graphClassifyCustomers now (validRecords l2)) :
    graphCustomersCalc now l1 = graphCustomersCalc now l2 := by
  unfold graphCustomersCalc
  rw [if_neg h1, if_neg h2, hset]

theorem p5CustomersCalc_congr (now : Int) (l1 l2 : List MigrationRecord)
    (h1 : ¬ (validRecords l1).length = 0) (h2 : ¬ (validRecords l2).length = 0)
    (hset : bucketSet p5ClassifyCustomers now (validRecords l1) =
      bucketSet p5ClassifyCustomers now (validRecords l2)) :
    p5CustomersCalc now l1 = p5CustomersCalc now l2 := by
  unfold p5CustomersCalc
  rw [if_neg h1, if_neg h2, hset]

/-- **C5.** Unique-customer aggregation (both the `graph.js` and the
`part_005` variant) is idempotent under duplicate
`(customerName, timestamp)` contributions: a timestamp repeated inside
one record, or repeated as an extra one-event record of the same
customer, leaves the whole aggregate series (hence every per-bucket
count) unchanged. -/
theorem unique_customer_idempotent (now : Int) (pre post migs : List MigrationRecord)
    (name : String) (ts : List Int) (t : Int) (li li' : Option Int)
    (ti ti' : TotalIngestions) :
    (t ∈ ts →
      graphCustomersCalc now (pre ++ (⟨name, some (ts ++ [t]), li, ti⟩ : MigrationRecord) :: post) =
        graphCustomersCalc now (pre ++ (⟨name, some ts, li, ti⟩ : MigrationRecord) :: post) ∧
      p5CustomersCalc now (pre ++ (⟨name, some (ts ++ [t]), li, ti⟩ : MigrationRecord) :: post) =
        p5CustomersCalc now (pre ++ (⟨name, some ts, li, ti⟩ : MigrationRecord) :: post)) ∧
    ((⟨name, some ts, li, ti⟩ : MigrationRecord) ∈ migs → t ∈ ts →
      graphCustomersCalc now (migs ++ [(⟨name, some [t], li', ti'⟩ : MigrationRecord)]) =
        graphCustomersCalc now migs ∧
      p5CustomersCalc now (migs ++ [(⟨name, some [t], li', ti'⟩ : MigrationRecord)]) =
        p5CustomersCalc now migs) := by
  constructor
  · intro ht
    have hne1 : ¬ (validRecords
        (pre ++ (⟨name, some (ts ++ [t]), li, ti⟩ : MigrationRecord) :: post)).length = 0 := by
      rw [validRecords_middle pre post _ (by rfl)]
      simp
    have hne2 : ¬ (validRecords
        (pre ++ (⟨name, some ts, li, ti⟩ : MigrationRecord) :: post)).length = 0 := by
      rw [validRecords_middle pre post _ (by rfl)]
      simp
    exact ⟨graphCustomersCalc_congr now _ _ hne1 hne2
        (bucketSet_dup_timestamp _ now pre post name ts t li ti ht),
      p5CustomersCalc_congr now _ _ hne1 hne2
        (bucketSet_dup_timestamp _ now pre post name ts t li ti ht)⟩
  · intro hmem ht
    have hmemv : (⟨name, some ts, li, ti⟩ : MigrationRecord) ∈ validRecords migs :=
      List.mem_filter.mpr ⟨hmem, rfl⟩
    have hne2 : ¬ (validRecords migs).length = 0 := by
      intro h
      rw [List.length_eq_zero] at h
      rw [h] at hmemv
      cases hmemv
    have hne1 : ¬ (validRecords
        (migs ++ [(⟨name, some [t], li', ti'⟩ : MigrationRecord)])).length = 0 := by
      rw [validRecords_append_singleton migs _ (by rfl)]
      simp
    exact ⟨graphCustomersCalc_congr now _ _ hne1 hne2
        (bucketSet_dup_pair _ now migs name ts t li li' ti ti' hmem ht),
      p5CustomersCalc_congr now _ _ hne1 hne2
        (bucketSet_dup_pair _ now migs name ts t li li' ti ti' hmem ht)⟩

/-- Concrete instance of `unique_customer_idempotent`: duplicating the
pair `("A", 5)` either way leaves the series unchanged. -/
theorem unique_customer_idempotent_witness :
    graphCustomersCalc 0 [(⟨"A", some ([5] ++ [5]), none, .absent⟩ : MigrationRecord)] =
      graphCustomersCalc 0 [(⟨"A", some [5], none, .absent⟩ : MigrationRecord)] ∧
    p5CustomersCalc 0
        ([(⟨"A", some [5], none, .absent⟩ : MigrationRecord)] ++
          [(⟨"A", some [5], none, .absent⟩ : MigrationRecord)]) =
      p5CustomersCalc 0 [(⟨"A", some [5], none, .absent⟩ : MigrationRecord)] := by
  have h := unique_customer_idempotent 0 [] []
    [(⟨"A", some [5], none, .absent⟩ : MigrationRecord)] "A" [5] 5 none none .absent .absent
  exact ⟨(h.1 (by decide)).1, (h.2 (by decide) (by decide)).2⟩

/-- **C8 (counterexample).** The `graph.js` customers `calculateData`
reads its reference instant from the ambient clock (`Date.now()` inside
the function, lines 178–181): with the clock value as the reified
parameter, the same input list yields different outputs at two different
instants, so the output is *not* a function of the input list alone and
`now` is not an explicit parameter of the source function. -/
theorem aggregator_depends_on_clock :
    graphCustomersCalc 0 [(⟨"A", some [0], none, .absent⟩ : MigrationRecord)] ≠
      graphCustomersCalc 5270400000 [(⟨"A", some [0], none, .absent⟩ : MigrationRecord)] := by
  decide

/-- **C8 (amended).** Determinism relative to the clock: the bucket/series
computation is a pure function of the pair (instant read from
`Date.now()` at the start of the pass, input record list); two runs with
the same instant and identical input lists produce identical series, in
identical order. -/
theorem aggregator_deterministic (now1 now2 : Int)
    (migs1 migs2 : List MigrationRecord) (hn : now1 = now2) (hm : migs1 = migs2) :
    graphCustomersCalc now1 migs1 = graphCustomersCalc now2 migs2 ∧
    p5CustomersCalc now1 migs1 = p5CustomersCalc now2 migs2 := by
  subst hn
  subst hm
  exact ⟨rfl, rfl⟩

/-- Concrete instance of `aggregator_deterministic`. -/
theorem aggregator_deterministic_witness :
    graphCustomersCalc 0 [(⟨"A", some [0], none, .absent⟩ : MigrationRecord)] =
      graphCustomersCalc 0 [(⟨"A", some [0], none, .absent⟩ : MigrationRecord)] ∧
    p5CustomersCalc 0 [(⟨"A", some [0], none, .absent⟩ : MigrationRecord)] =
      p5CustomersCalc 0 [(⟨"A", some [0], none, .absent⟩ : MigrationRecord)] :=
  aggregator_deterministic 0 0 [(⟨"A", some [0], none, .absent⟩ : MigrationRecord)]
    [(⟨"A", some [0], none, .absent⟩ : MigrationRecord)] rfl rfl

/-- Gregorian leap-year rule, as used by ECMAScript `Date`. -/
def isLeapYear (y : Nat) : Bool := (y % 4 == 0 && y % 100 != 0) || (y % 400 == 0)

def daysInYear (y : Nat) : Nat := if isLeapYear y then 366 else 365

/-- Month lengths of year `y`, January first. -/
def monthLengths (y : Nat) : List Nat :=
  [31, if isLeapYear y then 29 else 28, 31, 30, 31, 30, 31, 31, 30, 31, 30, 31]

/-- Walk forward from year `y`, consuming whole years from the day count
`d`; the fuel argument (any bound on the number of steps, e.g. `d + 1`)
makes the recursion structural and hence kernel-computable. -/
def yearFromFuel : Nat → Nat → Nat → Nat × Nat
  | 0, y, d => (y, d)
  | fuel + 1, y, d =>
    if d < daysInYear y then (y, d) else yearFromFuel fuel (y + 1) (d - daysInYear y)

/-- Walk the month-length table, converting a day-of-year into a 1-based
month number. -/
def monthFromDoy : List Nat → Nat → Nat → Nat
  | [], _, m => m
  | len :: rest, doy, m => if doy < len then m else monthFromDoy rest (doy - len) (m + 1)

/-- `(date.getUTCFullYear(), date.getUTCMonth() + 1)` of
`date = new Date(ms)`, for the positive timestamps admitted by the
`lastIngestion > 0` filters: day number since the epoch, then Gregorian
year/month extraction per the ECMAScript specification of the UTC
accessors. -/
def utcYearMonth (ms : Int) : Nat × Nat :=
  let days := ms.toNat / 86400000
  let yd := yearFromFuel (days + 1) 1970 days
  (yd.1, monthFromDoy (monthLengths yd.1) yd.2 1)

/-- Days from the epoch to the start of year `y ≥ 1970` (0 for 1970 and
below; only years ≥ 1970 occur for positive timestamps). -/
def daysUntilYear : Nat → Nat
  | 0 => 0
  | y + 1 => if y + 1 ≤ 1970 then 0 else daysUntilYear y + daysInYear y

/-- Day number of the first day of month `m` of year `y`. -/
def monthStartDays (ym : Nat × Nat) : Nat :=
  daysUntilYear ym.1 + ((monthLengths ym.1).take (ym.2 - 1)).sum

/-- `new Date(`${monthKey}-01T00:00:00Z`).getTime()` for a month key
`(y, m)`: the UTC instant of the first of the month, in milliseconds —
the quantity `createLineGraph`/`createTotalIngestionsGraph` sort their
data points by (`.sort((a, b) => a.date - b.date)`). -/
def monthStartMs (ym : Nat × Nat) : Nat := monthStartDays ym * 86400000

theorem daysInYear_ge (y : Nat) : 365 ≤ daysInYear y := by
  unfold daysInYear
  split <;> omega

theorem monthLengths_sum (y : Nat) : (monthLengths y).sum = daysInYear y := by
  unfold monthLengths daysInYear
  split <;> simp

theorem monthLengths_length (y : Nat) : (monthLengths y).length = 12 := rfl

theorem monthLengths_pos (y : Nat) : ∀ x ∈ monthLengths y, 0 < x := by
  unfold monthLengths
  split <;> (intro x hx; fin_cases hx <;> omega)

theorem yearFromFuel_spec (fuel : Nat) : ∀ y d, d < fuel →
    y ≤ (yearFromFuel fuel y d).1 ∧
    (yearFromFuel fuel y d).2 < daysInYear (yearFromFuel fuel y d).1 := by
  induction fuel with
  | zero => intro y d h; omega
  | succ n ih =>
    intro y d h
    rw [yearFromFuel]
    split
    · next hlt => exact ⟨Nat.le_refl y, hlt⟩
    · next hge =>
      have hdy := daysInYear_ge y
      have hrec := ih (y + 1) (d - daysInYear y) (by omega)
      exact ⟨by omega, hrec.2⟩

theorem monthFromDoy_bounds : ∀ (lens : List Nat) (doy m : Nat), doy < lens.sum →
    m ≤ monthFromDoy lens doy m ∧ monthFromDoy lens doy m < m + lens.length := by
  intro lens
  induction lens with
  | nil => intro doy m h; simp at h
  | cons len rest ih =>
    intro doy m h
    rw [monthFromDoy]
    split
    · next => constructor <;> simp
    · next hge =>
      simp only [List.sum_cons] at h
      have hrec := ih (doy - len) (m + 1) (by omega)
      simp only [List.length_cons]
      exact ⟨by omega, by omega⟩

/-- Every month key produced from a timestamp is a well-formed Gregorian
year-month at or after January 1970. -/
theorem utcYearMonth_bounds (ms : Int) :
    1970 ≤ (utcYearMonth ms).1 ∧ 1 ≤ (utcYearMonth ms).2 ∧ (utcYearMonth ms).2 ≤ 12 := by
  unfold utcYearMonth
  simp only []
  have h1 := yearFromFuel_spec (ms.toNat / 86400000 + 1) 1970 (ms.toNat / 86400000)
    (by omega)
  have h2 := monthFromDoy_bounds
    (monthLengths (yearFromFuel (ms.toNat / 86400000 + 1) 1970 (ms.toNat / 86400000)).1)
    (yearFromFuel (ms.toNat / 86400000 + 1) 1970 (ms.toNat / 86400000)).2 1
    (by rw [monthLengths_sum]; exact h1.2)
  rw [monthLengths_length] at h2
  exact ⟨h1.1, h2.1, by omega⟩

theorem daysUntilYear_le_1970 (y : Nat) (h : y ≤ 1970) : daysUntilYear y = 0 := by
  cases y with
  | zero => rfl
  | succ n =>
    rw [daysUntilYear]
    rw [if_pos h]

theorem daysUntilYear_succ (y : Nat) (h : 1970 ≤ y) :
    daysUntilYear (y + 1) = daysUntilYear y + daysInYear y := by
  rw [daysUntilYear]
  rw [if_neg (by omega)]

theorem daysUntilYear_step_le (y : Nat) : daysUntilYear y ≤ daysUntilYear (y + 1) := by
  by_cases h : 1970 ≤ y
  · rw [daysUntilYear_succ y h]
    omega
  · rw [daysUntilYear_le_1970 y (by omega)]
    omega

theorem daysUntilYear_mono {a b : Nat} (h : a ≤ b) :
    daysUntilYear a ≤ daysUntilYear b := by
  induction b with
  | zero => have : a = 0 := by omega
            rw [this]
  | succ n ih =>
    rcases Nat.lt_succ_iff_lt_or_eq.mp (Nat.lt_succ_of_le h) with h' | h'
    · exact Nat.le_trans (ih (by omega)) (daysUntilYear_step_le n)
    · rw [h']

theorem sum_take_lt_of_pos (l : List Nat) (hpos : ∀ x ∈ l, 0 < x) :
    ∀ i j, i < j → j ≤ l.length → (l.take i).sum < (l.take j).sum := by
  induction l with
  | nil => intro i j hij hj; simp at hj; omega
  | cons x xs ih =>
    intro i j hij hj
    cases i with
    | zero =>
      cases j with
      | zero => omega
      | succ j' =>
        simp only [List.take_zero, List.sum_nil, List.take_succ_cons, List.sum_cons]
        have hx : 0 < x := hpos x (List.mem_cons_self x xs)
        omega
    | succ i' =>
      cases j with
      | zero => omega
      | succ j' =>
        simp only [List.take_succ_cons, List.sum_cons]
        have := ih (fun a ha => hpos a (List.mem_cons_of_mem x ha)) i' j'
          (by omega) (by simpa using hj)
        omega

theorem sum_take_le_sum (l : List Nat) (i : Nat) : (l.take i).sum ≤ l.sum := by
  have := List.sum_take_add_sum_drop l i
  omega

/-- First-of-month day numbers strictly respect the lexicographic
(year, month) order, for well-formed keys at or after 1970. -/
theorem monthStartDays_lt_of_lex (y1 m1 y2 m2 : Nat)
    (hy1 : 1970 ≤ y1) (hm1 : 1 ≤ m1) (hm1' : m1 ≤ 12) (hm2 : 1 ≤ m2) (hm2' : m2 ≤ 12)
    (hlex : y1 < y2 ∨ (y1 = y2 ∧ m1 < m2)) :
    monthStartDays (y1, m1) < monthStartDays (y2, m2) := by
  unfold monthStartDays
  simp only []
  rcases hlex with hy | ⟨rfl, hm⟩
  · have hlt : ((monthLengths y1).take (m1 - 1)).sum < (monthLengths y1).sum := by
      have := sum_take_lt_of_pos (monthLengths y1) (monthLengths_pos y1) (m1 - 1) 12
        (by omega) (by rw [monthLengths_length])
      calc ((monthLengths y1).take (m1 - 1)).sum
          < ((monthLengths y1).take 12).sum := this
        _ ≤ (monthLengths y1).sum := sum_take_le_sum _ _
    have hstep : daysUntilYear y1 + daysInYear y1 = daysUntilYear (y1 + 1) :=
      (daysUntilYear_succ y1 hy1).symm
    have hmono : daysUntilYear (y1 + 1) ≤ daysUntilYear y2 := daysUntilYear_mono (by omega)
    rw [monthLengths_sum] at hlt
    omega
  · have := sum_take_lt_of_pos (monthLengths y1) (monthLengths_pos y1) (m1 - 1) (m2 - 1)
      (by omega) (by rw [monthLengths_length]; omega)
    omega

theorem monthStartMs_lt_of_lex (a b : Nat × Nat)
    (ha : 1970 ≤ a.1 ∧ 1 ≤ a.2 ∧ a.2 ≤ 12) (hb : 1970 ≤ b.1 ∧ 1 ≤ b.2 ∧ b.2 ≤ 12)
    (hlex : a.1 < b.1 ∨ (a.1 = b.1 ∧ a.2 < b.2)) :
    monthStartMs a < monthStartMs b := by
  obtain ⟨a1, a2⟩ := a
  obtain ⟨b1, b2⟩ := b
  unfold monthStartMs
  have := monthStartDays_lt_of_lex a1 a2 b1 b2 ha.1 ha.2.1 ha.2.2 hb.2.1 hb.2.2 hlex
  omega

/-- `monthGroups.set(k, (monthGroups.get(k) || 0) + v)` on a JS `Map`
modelled as an insertion-ordered association list with unique keys:
update in place when `k` is present, append `(k, v)` otherwise. -/
def mapAdd (groups : List ((Nat × Nat) × Int)) (k : Nat × Nat) (v : Int) :
    List ((Nat × Nat) × Int) :=
  if groups.any fun p => p.1 == k then
    groups.map fun p => if p.1 == k then (p.1, p.2 + v) else p
  else groups ++ [(k, v)]

/-- One pass of `validMigrations.forEach(...)` accumulating into the
month `Map`: key and per-record amount are parameters (the two line
graphs differ only in those). -/
def groupFold (key : MigrationRecord → Nat × Nat) (val : MigrationRecord → Int)
    (l : List MigrationRecord) : List ((Nat × Nat) × Int) :=
  l.foldl (fun acc m => mapAdd acc (key m) (val m)) []

theorem mapAdd_keys (groups : List ((Nat × Nat) × Int)) (k : Nat × Nat) (v : Int) :
    (mapAdd groups k v).map (fun p => p.1) =
      if groups.any fun p => p.1 == k then groups.map fun p => p.1
      else (groups.map fun p => p.1) ++ [k] := by
  unfold mapAdd
  split
  · rw [List.map_map]
    congr 1
    funext p
    simp only [Function.comp]
    split <;> rfl
  · simp

theorem mapAdd_keys_nodup (groups : List ((Nat × Nat) × Int)) (k : Nat × Nat) (v : Int)
    (hnd : (groups.map fun p => p.1).Nodup) :
    ((mapAdd groups k v).map fun p => p.1).Nodup := by
  rw [mapAdd_keys]
  split
  · exact hnd
  · next hany =>
    rw [List.nodup_append]
    refine ⟨hnd, List.nodup_singleton k, ?_⟩
    intro a ha hk
    rcases List.mem_singleton.mp hk with rfl
    rcases List.mem_map.mp ha with ⟨p, hp, hpk⟩
    have := List.any_eq_false.mp (Bool.eq_false_iff.mpr hany) p hp
    exact this (by simp [hpk])

theorem mem_mapAdd_keys (groups : List ((Nat × Nat) × Int)) (k k' : Nat × Nat) (v : Int) :
    k' ∈ (mapAdd groups k v).map (fun p => p.1) ↔
      k' ∈ groups.map (fun p => p.1) ∨ k' = k := by
  rw [mapAdd_keys]
  split
  · next hany =>
    constructor
    · exact Or.inl
    · rintro (h | rfl)
      · exact h
      · rw [List.any_eq_true] at hany
        obtain ⟨p, hp, hpk⟩ := hany
        exact List.mem_map.mpr ⟨p, hp, by simpa using hpk⟩
  · simp

theorem map_update_of_not_mem (groups : List ((Nat × Nat) × Int)) (k : Nat × Nat)
    (v : Int) (h : ∀ p ∈ groups, ¬ p.1 = k) :
    (groups.map fun p => if p.1 == k then (p.1, p.2 + v) else p) = groups := by
  induction groups with
  | nil => rfl
  | cons q rest ih =>
    rw [List.map_cons,
      if_neg (by simpa using h q (List.mem_cons_self q rest)),
      ih fun p hp => h p (List.mem_cons_of_mem q hp)]

theorem mapAdd_values_sum (groups : List ((Nat × Nat) × Int)) (k : Nat × Nat) (v : Int)
    (hnd : (groups.map fun p => p.1).Nodup) :
    ((mapAdd groups k v).map fun p => p.2).sum = ((groups.map fun p => p.2).sum) + v := by
  unfold mapAdd
  split
  · next hany =>
    induction groups with
    | nil => simp at hany
    | cons q rest ih =>
      simp only [List.map_cons, List.nodup_cons] at hnd
      rw [List.map_cons, List.map_cons, List.map_cons, List.sum_cons, List.sum_cons]
      by_cases hqk : q.1 = k
      · have hrest : (rest.map fun p => if p.1 == k then (p.1, p.2 + v) else p) = rest := by
          apply map_update_of_not_mem
          intro p hp hpk
          exact hnd.1 (List.mem_map.mpr ⟨p, hp, by rw [hpk, hqk]⟩)
        have h2 : (if (q.1 == k) = true then (q.1, q.2 + v) else q).2 = q.2 + v := by
          rw [if_pos (by simpa using hqk)]
        rw [hrest, h2]
        omega
      · have hany' : rest.any (fun p => p.1 == k) = true := by
          rcases List.any_eq_true.mp hany with ⟨p, hp, hpk⟩
          rcases List.mem_cons.mp hp with rfl | hp
          · exact absurd (by simpa using hpk) hqk
          · exact List.any_eq_true.mpr ⟨p, hp, hpk⟩
        have h2 : (if (q.1 == k) = true then (q.1, q.2 + v) else q).2 = q.2 := by
          rw [if_neg (by simpa using hqk)]
        have := ih hnd.2 hany'
        rw [h2, this]
        omega
  · simp

theorem groupFold_append_singleton (key : MigrationRecord → Nat × Nat)
    (val : MigrationRecord → Int) (l : List MigrationRecord) (m : MigrationRecord) :
    groupFold key val (l ++ [m]) = mapAdd (groupFold key val l) (key m) (val m) := by
  unfold groupFold
  rw [List.foldl_append]
  rfl

/-- Invariants of the month `Map` after a full pass: keys are unique,
keys are exactly the key-images of the processed records, and each
entry's value is the sum of the amounts of the records of that key. -/
theorem groupFold_spec (key : MigrationRecord → Nat × Nat)
    (val : MigrationRecord → Int) (l : List MigrationRecord) :
    ((groupFold key val l).map (fun p => p.1)).Nodup ∧
    (∀ k, k ∈ (groupFold key val l).map (fun p => p.1) ↔ k ∈ l.map key) ∧
    (∀ kv ∈ groupFold key val l,
      kv.2 = ((l.filter fun m => key m == kv.1).map val).sum) := by
  induction l using List.reverseRecOn with
  | nil => exact ⟨List.nodup_nil, by simp [groupFold], by simp [groupFold]⟩
  | append_singleton l m ih =>
    obtain ⟨ihnd, ihk, ihv⟩ := ih
    rw [groupFold_append_singleton]
    refine ⟨mapAdd_keys_nodup _ _ _ ihnd, ?_, ?_⟩
    · intro k
      rw [mem_mapAdd_keys, ihk k]
      simp
    · intro kv hkv
      unfold mapAdd at hkv
      split at hkv
      · next hany =>
        rcases List.mem_map.mp hkv with ⟨p, hp, rfl⟩
        by_cases hpk : p.1 = key m
        · rw [if_pos (by simpa using hpk)]
          simp only [List.filter_append, List.map_append, List.sum_append]
          have hfm : List.filter (fun m' => key m' == p.1) [m] = [m] := by
            have hb : (key m == p.1) = true := by simpa using hpk.symm
            simp [List.filter, hb]
          rw [hfm]
          have := ihv p hp
          simp only [List.map_cons, List.map_nil, List.sum_cons, List.sum_nil]
          omega
        · rw [if_neg (by simpa using hpk)]
          simp only [List.filter_append, List.map_append, List.sum_append]
          have hfm : List.filter (fun m' => key m' == p.1) [m] = [] := by
            have hb : (key m == p.1) = false := by
              rw [beq_eq_false_iff_ne]
              intro he
              exact hpk he.symm
            simp [List.filter, hb]
          rw [hfm]
          have := ihv p hp
          simp only [List.map_nil, List.sum_nil]
          omega
      · next hany =>
        have hnotin : key m ∉ (groupFold key val l).map (fun p => p.1) := by
          intro hin
          rcases List.mem_map.mp hin with ⟨p, hp, hpk⟩
          have := List.any_eq_false.mp (Bool.eq_false_iff.mpr hany) p hp
          exact this (by simp [hpk])
        rcases List.mem_append.mp hkv with hkv | hkv
        · simp only [List.filter_append, List.map_append, List.sum_append]
          have hfm : List.filter (fun m' => key m' == kv.1) [m] = [] := by
            have hb : (key m == kv.1) = false := by
              rw [beq_eq_false_iff_ne]
              intro he
              apply hnotin
              rw [he]
              exact List.mem_map.mpr ⟨kv, hkv, rfl⟩
            simp [List.filter, hb]
          rw [hfm]
          have := ihv kv hkv
          simp only [List.map_nil, List.sum_nil]
          omega
        · rcases List.mem_singleton.mp hkv with rfl
          have hfl : List.filter (fun m' => key m' == (key m, val m).1) l = [] := by
            rw [List.filter_eq_nil_iff]
            intro m' hm' hb
            have hkk : key m' = key m := by simpa using hb
            exact hnotin ((ihk (key m)).mpr (List.mem_map.mpr ⟨m', hm', hkk⟩))
          rw [List.filter_append, hfl]
          have hfm : List.filter (fun m' => key m' == (key m, val m).1) [m] = [m] := by
            simp [List.filter]
          rw [hfm]
          simp

/-- One data point of a line graph: the month key pair, the formatted
`YYYY-MM` string the source uses as the `Map` key and `monthKey` field,
and the accumulated count (the `date` field is the sort key
`monthStartMs ym` and is not stored). -/
structure MonthPoint where
  ym : Nat × Nat
  monthKey : String
  count : Int
deriving DecidableEq

/-- `` `${date.getUTCFullYear()}-${String(date.getUTCMonth() + 1).padStart(2, '0')}` ``:
for the keys occurring here (`y ≥ 1970`, `1 ≤ m ≤ 12`) this formatting is
injective, so keying the `Map` by the pair `(y, m)` is equivalent to
keying it by the string. -/
def monthKeyStr (ym : Nat × Nat) : String :=
  toString ym.1 ++ "-" ++ (if ym.2 < 10 then "0" ++ toString ym.2 else toString ym.2)

/-- JavaScript truthiness of the `totalIngestions` field. -/
def jsTruthy : TotalIngestions → Bool
  | .absent => false
  | .num n => n != 0
  | .nonNumeric => true

/-- `Number(migration.totalIngestions) || 0`. -/
def numberOrZero : TotalIngestions → Int
  | .num n => n
  | _ => 0

/-- `(m) => m.lastIngestion && m.lastIngestion > 0` (`lineGraph.js`
line 52). -/
def lineValidFilter (m : MigrationRecord) : Bool :=
  match m.lastIngestion with
  | some v => decide (0 < v)
  | none => false

def lineValid (migs : List MigrationRecord) : List MigrationRecord :=
  migs.filter lineValidFilter

/-- The month key of one record inside the `forEach` loop
(`new Date(migration.lastIngestion)`, then UTC year-month; the records
reaching this point all have `lastIngestion = some v` with `v > 0`). -/
def lineMonthKey (m : MigrationRecord) : Nat × Nat :=
  utcYearMonth (m.lastIngestion.getD 0)

/-- The comparator `(a, b) => a.date - b.date`: ascending in the UTC
instant of the first of the month. -/
def monthLe (a b : MonthPoint) : Prop := monthStartMs a.ym ≤ monthStartMs b.ym

instance : DecidableRel monthLe := fun _ _ => Nat.decLe _ _

instance : IsTotal MonthPoint monthLe := ⟨fun _ _ => Nat.le_total _ _⟩

instance : IsTrans MonthPoint monthLe := ⟨fun _ _ _ => Nat.le_trans⟩

/-- `Array.from(monthGroups.entries()).map(([monthKey, total]) => ...)`. -/
def toMonthPoints (groups : List ((Nat × Nat) × Int)) : List MonthPoint :=
  groups.map fun p => { ym := p.1, monthKey := monthKeyStr p.1, count := p.2 }

/-- The `monthGroups` map of `createLineGraph` (`lineGraph.js`
lines 60–68): one pass over the valid records, adding 1 per record to
its month's entry. -/
def lineMonthGroups (migs : List MigrationRecord) : List ((Nat × Nat) × Int) :=
  groupFold lineMonthKey (fun _ => 1) (lineValid migs)

/-- The data points of `createLineGraph` (`lineGraph.js` lines 16–77):
filter to records with a positive `lastIngestion`; with none, the
function renders a no-data placeholder and produces no points (modelled
as `[]`); otherwise group per UTC month and sort ascending by the
first-of-month instant (a stable sort by the comparator, as
`Array.prototype.sort` is).  `dateRange` and `now` are consumed only by
the chart title and axis labels, never by this computation. -/
def createLineGraphPoints (dateRange : String) (now : Int)
    (migs : List MigrationRecord) : List MonthPoint :=
  if (lineValid migs).length = 0 then []
  else List.insertionSort monthLe (toMonthPoints (lineMonthGroups migs))

/-- `(m) => m.lastIngestion && m.lastIngestion > 0 && m.totalIngestions`
(`lineGraph.js` lines 319–321). -/
def totalValidFilter (m : MigrationRecord) : Bool :=
  lineValidFilter m && jsTruthy m.totalIngestions

def totalValid (migs : List MigrationRecord) : List MigrationRecord :=
  migs.filter totalValidFilter

/-- The `monthGroups` map of `createTotalIngestionsGraph` (`lineGraph.js`
lines 327–333): per valid record, add `Number(totalIngestions) || 0` to
its month's sum. -/
def totalMonthGroups (migs : List MigrationRecord) : List ((Nat × Nat) × Int) :=
  groupFold lineMonthKey (fun m => numberOrZero m.totalIngestions) (totalValid migs)

/-- The data points of `createTotalIngestionsGraph` (`lineGraph.js`
lines 287–341), structured exactly as `createLineGraphPoints`. -/
def createTotalIngestionsPoints (dateRange : String) (now : Int)
    (migs : List MigrationRecord) : List MonthPoint :=
  if (totalValid migs).length = 0 then []
  else List.insertionSort monthLe (toMonthPoints (totalMonthGroups migs))

theorem toMonthPoints_ym (groups : List ((Nat × Nat) × Int)) :
    (toMonthPoints groups).map (fun p => p.ym) = groups.map (fun p => p.1) := by
  unfold toMonthPoints
  rw [List.map_map]
  rfl

theorem toMonthPoints_count (groups : List ((Nat × Nat) × Int)) :
    (toMonthPoints groups).map (fun p => p.count) = groups.map (fun p => p.2) := by
  unfold toMonthPoints
  rw [List.map_map]
  rfl

theorem sum_map_one (l : List MigrationRecord) :
    (l.map fun _ => (1 : Int)).sum = l.length := by
  induction l with
  | nil => rfl
  | cons x xs ih =>
    simp only [List.map_cons, List.sum_cons, List.length_cons, ih]
    omega

theorem groupFold_values_sum (key : MigrationRecord → Nat × Nat)
    (val : MigrationRecord → Int) (l : List MigrationRecord) :
    ((groupFold key val l).map (fun p => p.2)).sum = (l.map val).sum := by
  induction l using List.reverseRecOn with
  | nil => rfl
  | append_singleton l m ih =>
    rw [groupFold_append_singleton,
      mapAdd_values_sum _ _ _ (groupFold_spec key val l).1, ih]
    simp

/-- **C6.** `createLineGraph` month mode: each contributing record is
keyed by the UTC year-month of its timestamp (formatted `YYYY-MM`),
independently of `now`; a month appears among the points only when some
contributing record maps to it (sparse, no zero-fill), every
contributing record's month does appear, and the points are strictly
ascending in calendar month (lexicographic year, month). -/
theorem month_mode_keys_sparse_sorted (dateRange : String) (now : Int)
    (migs : List MigrationRecord) :
    (∀ now2 : Int, createLineGraphPoints dateRange now2 migs =
      createLineGraphPoints dateRange now migs) ∧
    (∀ p ∈ createLineGraphPoints dateRange now migs,
      p.monthKey = monthKeyStr p.ym ∧
      ∃ m ∈ lineValid migs, lineMonthKey m = p.ym) ∧
    (∀ m ∈ lineValid migs,
      ∃ p ∈ createLineGraphPoints dateRange now migs, p.ym = lineMonthKey m) ∧
    List.Pairwise (fun a b : MonthPoint =>
      a.ym.1 < b.ym.1 ∨ (a.ym.1 = b.ym.1 ∧ a.ym.2 < b.ym.2))
      (createLineGraphPoints dateRange now migs) := by
  obtain ⟨hnd, hkeys, hvals⟩ := groupFold_spec lineMonthKey (fun _ => 1) (lineValid migs)
  by_cases hlen : (lineValid migs).length = 0
  · have hempty : createLineGraphPoints dateRange now migs = [] := by
      unfold createLineGraphPoints
      rw [if_pos hlen]
    have hnil : lineValid migs = [] := List.length_eq_zero.mp hlen
    refine ⟨fun now2 => rfl, ?_, ?_, ?_⟩
    · rw [hempty]
      intro p hp
      cases hp
    · rw [hnil]
      intro m hm
      cases hm
    · rw [hempty]
      exact List.Pairwise.nil
  · have hpts : createLineGraphPoints dateRange now migs =
        List.insertionSort monthLe (toMonthPoints (lineMonthGroups migs)) := by
      unfold createLineGraphPoints
      rw [if_neg hlen]
    have hperm : (createLineGraphPoints dateRange now migs).Perm
        (toMonthPoints (lineMonthGroups migs)) := by
      rw [hpts]
      exact List.perm_insertionSort _ _
    have hmemkey : ∀ p ∈ createLineGraphPoints dateRange now migs,
        ∃ kv ∈ lineMonthGroups migs,
          p = ({ ym := kv.1, monthKey := monthKeyStr kv.1, count := kv.2 } : MonthPoint) := by
      intro p hp
      have hp' : p ∈ toMonthPoints (lineMonthGroups migs) := hperm.mem_iff.mp hp
      rcases List.mem_map.mp hp' with ⟨kv, hkv, rfl⟩
      exact ⟨kv, hkv, rfl⟩
    refine ⟨fun now2 => rfl, ?_, ?_, ?_⟩
    · intro p hp
      rcases hmemkey p hp with ⟨kv, hkv, rfl⟩
      refine ⟨rfl, ?_⟩
      have : kv.1 ∈ (lineValid migs).map lineMonthKey :=
        (hkeys kv.1).mp (List.mem_map.mpr ⟨kv, hkv, rfl⟩)
      rcases List.mem_map.mp this with ⟨m, hm, hk⟩
      exact ⟨m, hm, hk⟩
    · intro m hm
      have : lineMonthKey m ∈ (lineMonthGroups migs).map (fun p => p.1) :=
        (hkeys (lineMonthKey m)).mpr (List.mem_map.mpr ⟨m, hm, rfl⟩)
      rcases List.mem_map.mp this with ⟨kv, hkv, hk⟩
      refine ⟨{ ym := kv.1, monthKey := monthKeyStr kv.1, count := kv.2 }, ?_, hk⟩
      exact hperm.mem_iff.mpr (List.mem_map.mpr ⟨kv, hkv, rfl⟩)
    · have hsorted : List.Pairwise monthLe (createLineGraphPoints dateRange now migs) := by
        rw [hpts]
        exact List.sorted_insertionSort monthLe _
      have hymnd : ((createLineGraphPoints dateRange now migs).map
          (fun p => p.ym)).Nodup := by
        rw [(hperm.map (fun p => p.ym)).nodup_iff, toMonthPoints_ym]
        exact hnd
      have hne : List.Pairwise (fun a b : MonthPoint => a.ym ≠ b.ym)
          (createLineGraphPoints dateRange now migs) := List.pairwise_map.mp hymnd
      have hbound : ∀ p ∈ createLineGraphPoints dateRange now migs,
          1970 ≤ p.ym.1 ∧ 1 ≤ p.ym.2 ∧ p.ym.2 ≤ 12 := by
        intro p hp
        rcases hmemkey p hp with ⟨kv, hkv, rfl⟩
        have : kv.1 ∈ (lineValid migs).map lineMonthKey :=
          (hkeys kv.1).mp (List.mem_map.mpr ⟨kv, hkv, rfl⟩)
        rcases List.mem_map.mp this with ⟨m, _, hk⟩
        rw [← hk]
        exact utcYearMonth_bounds _
      refine List.Pairwise.imp_of_mem ?_ (hsorted.and hne)
      intro a b ha hb hab
      obtain ⟨hle, hne'⟩ := hab
      have hba := hbound a ha
      have hbb := hbound b hb
      rcases Nat.lt_trichotomy a.ym.1 b.ym.1 with h | h | h
      · exact Or.inl h
      · rcases Nat.lt_trichotomy a.ym.2 b.ym.2 with h2 | h2 | h2
        · exact Or.inr ⟨h, h2⟩
        · exact absurd (Prod.ext_iff.mpr ⟨h, h2⟩) hne'
        · exfalso
          have := monthStartMs_lt_of_lex b.ym a.ym
            ⟨hbb.1, hbb.2.1, hbb.2.2⟩ ⟨hba.1, hba.2.1, hba.2.2⟩
            (Or.inr ⟨h.symm, h2⟩)
          exact absurd hle (by unfold monthLe; omega)
      · exfalso
        have := monthStartMs_lt_of_lex b.ym a.ym
          ⟨hbb.1, hbb.2.1, hbb.2.2⟩ ⟨hba.1, hba.2.1, hba.2.2⟩ (Or.inl h)
        exact absurd hle (by unfold monthLe; omega)

/-- Concrete instance of `month_mode_keys_sparse_sorted`: the single
valid record's month (January 1970) appears among the points. -/
theorem month_mode_keys_sparse_sorted_witness :
    ∃ p ∈ createLineGraphPoints "LAST_MONTH" 0
        [(⟨"A", none, some 86400000, .absent⟩ : MigrationRecord)],
      p.ym = lineMonthKey (⟨"A", none, some 86400000, .absent⟩ : MigrationRecord) :=
  (month_mode_keys_sparse_sorted "LAST_MONTH" 0
      [(⟨"A", none, some 86400000, .absent⟩ : MigrationRecord)]).2.2.1
    (⟨"A", none, some 86400000, .absent⟩ : MigrationRecord) (by decide)

/-- **C10.** Month bucketing conserves the input: every record passing
the positive-`lastIngestion` filter contributes exactly 1 to exactly one
month point, so the counts of `createLineGraph`'s points sum to the
number of such records; months are pairwise distinct, and every such
record's month occurs. -/
theorem month_bucketing_conserves (dateRange : String) (now : Int)
    (migs : List MigrationRecord) :
    ((createLineGraphPoints dateRange now migs).map (fun p => p.count)).sum =
      ((lineValid migs).length : Int) ∧
    ((createLineGraphPoints dateRange now migs).map (fun p => p.ym)).Nodup ∧
    (∀ m ∈ lineValid migs,
      ∃ p ∈ createLineGraphPoints dateRange now migs, p.ym = lineMonthKey m) := by
  obtain ⟨hnd, hkeys, hvals⟩ := groupFold_spec lineMonthKey (fun _ => 1) (lineValid migs)
  by_cases hlen : (lineValid migs).length = 0
  · have hempty : createLineGraphPoints dateRange now migs = [] := by
      unfold createLineGraphPoints
      rw [if_pos hlen]
    have hnil : lineValid migs = [] := List.length_eq_zero.mp hlen
    refine ⟨?_, ?_, ?_⟩
    · rw [hempty, hlen]
      rfl
    · rw [hempty]
      exact List.nodup_nil
    · rw [hnil]
      intro m hm
      cases hm
  · have hpts : createLineGraphPoints dateRange now migs =
        List.insertionSort monthLe (toMonthPoints (lineMonthGroups migs)) := by
      unfold createLineGraphPoints
      rw [if_neg hlen]
    have hperm : (createLineGraphPoints dateRange now migs).Perm
        (toMonthPoints (lineMonthGroups migs)) := by
      rw [hpts]
      exact List.perm_insertionSort _ _
    refine ⟨?_, ?_, ?_⟩
    · rw [(hperm.map (fun p => p.count)).sum_eq, toMonthPoints_count]
      unfold lineMonthGroups
      rw [groupFold_values_sum lineMonthKey (fun _ => 1) (lineValid migs)]
      exact sum_map_one (lineValid migs)
    · rw [(hperm.map (fun p => p.ym)).nodup_iff, toMonthPoints_ym]
      exact hnd
    · intro m hm
      have : lineMonthKey m ∈ (lineMonthGroups migs).map (fun p => p.1) :=
        (hkeys (lineMonthKey m)).mpr (List.mem_map.mpr ⟨m, hm, rfl⟩)
      rcases List.mem_map.mp this with ⟨kv, hkv, hk⟩
      refine ⟨{ ym := kv.1, monthKey := monthKeyStr kv.1, count := kv.2 }, ?_, hk⟩
      exact hperm.mem_iff.mpr (List.mem_map.mpr ⟨kv, hkv, rfl⟩)

/-- Concrete instance of `month_bucketing_conserves`: two January-1970
records, counts sum to 2. -/
theorem month_bucketing_conserves_witness :
    ((createLineGraphPoints "LAST_MONTH" 0
        [(⟨"A", none, some 86400000, .absent⟩ : MigrationRecord),
         (⟨"B", none, some 86400001, .absent⟩ : MigrationRecord)]).map
      (fun p => p.count)).sum = (2 : Int) :=
  (month_bucketing_conserves "LAST_MONTH" 0
      [(⟨"A", none, some 86400000, .absent⟩ : MigrationRecord),
       (⟨"B", none, some 86400001, .absent⟩ : MigrationRecord)]).1

/-- **C9.** The `dateRange` argument of `createLineGraph` and
`createTotalIngestionsGraph` never influences the computed data points
(it is consumed only by the displayed title and axis labels): any two
range selections give identical point lists. -/
theorem date_range_no_influence (dr1 dr2 : String) (now : Int)
    (migs : List MigrationRecord) :
    createLineGraphPoints dr1 now migs = createLineGraphPoints dr2 now migs ∧
    createTotalIngestionsPoints dr1 now migs = createTotalIngestionsPoints dr2 now migs :=
  ⟨rfl, rfl⟩

/-- **C7 (counterexample).** A record with a valid `lastIngestion` but an
absent `totalIngestions` is removed by the validity filter of
`createTotalIngestionsGraph` (`m.totalIngestions` is falsy), so it
contributes to *no* month: with it as the only input the result is the
no-data case with no points at all — not a month point with sum 0 as the
claim states. -/
theorem total_ingestions_absent_dropped :
    totalValid [(⟨"A", none, some 86400000, .absent⟩ : MigrationRecord)] = [] ∧
    createTotalIngestionsPoints "LAST_MONTH" 0
      [(⟨"A", none, some 86400000, .absent⟩ : MigrationRecord)] = [] := by
  exact ⟨rfl, rfl⟩

/-- **C7 (amended).** Malformed `totalIngestions` handling of
`createTotalIngestionsGraph`: a record with positive `lastIngestion` and
a *truthy* non-numeric `totalIngestions` passes the filter and is
coerced to 0 (`Number(x) || 0`), contributing 0 to its month's sum; a
record whose `totalIngestions` is absent or otherwise falsy is dropped
by the filter and contributes to no month; and every point's count is
exactly the sum of the coerced contributions of its month — no input
raises an error. -/
theorem total_ingestions_malformed_handling (dateRange : String) (now : Int)
    (migs : List MigrationRecord) :
    (∀ (name : String) (ds : Option (List Int)) (v : Int), 0 < v →
      totalValid (migs ++ [(⟨name, ds, some v, .nonNumeric⟩ : MigrationRecord)]) =
        totalValid migs ++ [(⟨name, ds, some v, .nonNumeric⟩ : MigrationRecord)]) ∧
    numberOrZero .nonNumeric = 0 ∧
    (∀ (name : String) (ds : Option (List Int)) (li : Option Int),
      totalValid (migs ++ [(⟨name, ds, li, .absent⟩ : MigrationRecord)]) =
        totalValid migs) ∧
    (∀ p ∈ createTotalIngestionsPoints dateRange now migs,
      p.count = (((totalValid migs).filter fun m => lineMonthKey m == p.ym).map
        fun m => numberOrZero m.totalIngestions).sum) := by
  refine ⟨?_, rfl, ?_, ?_⟩
  · intro name ds v hv
    unfold totalValid
    rw [List.filter_append]
    congr 1
    simp [totalValidFilter, lineValidFilter, jsTruthy, hv]
  · intro name ds li
    unfold totalValid
    rw [List.filter_append]
    have : List.filter totalValidFilter [(⟨name, ds, li, .absent⟩ : MigrationRecord)] = [] := by
      simp [totalValidFilter, jsTruthy, Bool.and_false]
    rw [this, List.append_nil]
  · intro p hp
    obtain ⟨hnd, hkeys, hvals⟩ :=
      groupFold_spec lineMonthKey (fun m => numberOrZero m.totalIngestions) (totalValid migs)
    by_cases hlen : (totalValid migs).length = 0
    · unfold createTotalIngestionsPoints at hp
      rw [if_pos hlen] at hp
      cases hp
    · unfold createTotalIngestionsPoints at hp
      rw [if_neg hlen] at hp
      have hp' : p ∈ toMonthPoints (totalMonthGroups migs) :=
        (List.perm_insertionSort _ _).mem_iff.mp hp
      rcases List.mem_map.mp hp' with ⟨kv, hkv, rfl⟩
      exact hvals kv hkv

/-- Concrete instance of `total_ingestions_malformed_handling`: a truthy
non-numeric `totalIngestions` record is kept by the filter (and coerces
to 0). -/
theorem total_ingestions_malformed_handling_witness :
    totalValid [(⟨"A", none, some 1, .nonNumeric⟩ : MigrationRecord)] =
      [(⟨"A", none, some 1, .nonNumeric⟩ : MigrationRecord)] ∧
    numberOrZero .nonNumeric = 0 := by
  have h := total_ingestions_malformed_handling "LAST_MONTH" 0 []
  refine ⟨?_, h.2.1⟩
  have h1 := h.1 "A" none 1 (by decide)
  simpa [totalValid] using h1
